import Mathlib

/-!
Verification of the nixup core against its specification.

The embedding follows the most recent parsing/dedup variant of the source
(`src/store/mod.rs`), which the spec's design notes declare canonical, together
with the diff and partition layer (`src/store.rs`, `src/store/diff.rs`) and the
display-ordering comparator (`src/main.rs` / `src/display.rs`).

Strings are modelled as `List Char`; the source operates on the UTF-8 bytes of
validated strings, and for the ASCII inputs of this domain byte positions and
char positions coincide.
-/

namespace Nixup

/-- A parsed store record, embedding `Store` from `src/store/mod.rs`
(fields `id`, `name`, `version`, `suffix`, `register_time`). -/
structure Store where
  id : Nat
  name : String
  version : String
  suffix : Option String
  register_time : Nat
deriving DecidableEq, Repr

/-- One character of a version fragment, embedding the closure inside
`Store::is_version_str` (`src/store/mod.rs` lines 143-147): an ASCII digit,
a dot, a lowercase letter, or an underscore. -/
def isVerChar (c : Char) : Bool :=
  c.isDigit || c == '.' || ('a' ≤ c && c ≤ 'z') || c == '_'

/-- Embeds `Store::is_version_str` (`src/store/mod.rs` lines 126-148): the
fragment must start with a digit, or with `v` immediately followed by a digit,
and every remaining character must satisfy `isVerChar`. -/
def isVersionStr : List Char → Bool
  | [] => false
  | c :: rest =>
    if c = 'v' then
      match rest with
      | [] => false
      | d :: rest2 => d.isDigit && (d :: rest2).all isVerChar
    else if c.isDigit then (c :: rest).all isVerChar
    else false

/-- The positions of the `-` delimiter in the stripped path, embedding the
`fragments` vector of `Store::parse` (`src/store/mod.rs` lines 37-41). -/
def dashIndices (l : List Char) : List Nat :=
  l.enum.filterMap fun p => if p.2 = '-' then some p.1 else none

/-- Embeds the version-scanning loop of `Store::parse`
(`src/store/mod.rs` lines 86-109): walk the delimiter positions in order and
return the first one whose following fragment (up to the next delimiter, or to
the end of the path for the last one) satisfies `isVersionStr`. -/
def findVersionStart (l : List Char) : List Nat → Option Nat
  | [] => none
  | [f] => if isVersionStr (l.drop (f + 1)) then some f else none
  | f :: g :: rest =>
    if isVersionStr ((l.drop (f + 1)).take (g - (f + 1))) then some f
    else findVersionStart l (g :: rest)

/-- Embeds `Store::parse` (`src/store/mod.rs` lines 28-124) applied to a path
whose content-hash prefix has already been stripped (the spec's §4.1 contract).
With no delimiter the path is rejected; with exactly one delimiter the fast
path accepts iff the second fragment contains a digit; otherwise the last
fragment becomes the suffix when it has no digit, and the version starts at
the first fragment satisfying `isVersionStr`, extending to the suffix. -/
def parseStripped (id regTime : Nat) (l : List Char) : Option Store :=
  match dashIndices l with
  | [] => none
  | [i] =>
    let version := l.drop (i + 1)
    if version.any Char.isDigit then
      some { id := id, name := (l.take i).asString, version := version.asString,
             suffix := none, register_time := regTime }
    else none
  | i :: j :: rest =>
    let fragments := i :: j :: rest
    let lastFrag := fragments.getLastD 0
    let sfxSlice := l.drop (lastFrag + 1)
    let suffixInfo : Option String × Nat :=
      if sfxSlice.any Char.isDigit then (none, l.length)
      else (some sfxSlice.asString, lastFrag)
    match findVersionStart l fragments with
    | none => none
    | some f =>
      some { id := id, name := (l.take f).asString,
             version := ((l.drop (f + 1)).take (suffixInfo.2 - (f + 1))).asString,
             suffix := suffixInfo.1, register_time := regTime }

/-- Embeds `Store::strip_prefix` (`src/store/mod.rs` lines 150-169): the fast
path drops the fixed 44-byte `/nix/store/<hash>-` prefix when the dash is at
position 43; the fallback drops everything through the first dash, rejecting
when nothing follows it. -/
def stripHash (l : List Char) : Option (List Char) :=
  if l.length > 44 ∧ l.getD 43 ' ' = '-' then some (l.drop 44)
  else
    match l.findIdx? (· = '-') with
    | none => none
    | some pos => if l.length ≤ pos + 1 then none else some (l.drop (pos + 1))

/-- The full parser on a raw store path: strip the hash prefix, then parse. -/
def Store.parse (id regTime : Nat) (path : String) : Option Store :=
  (stripHash path.toList).bind (parseStripped id regTime)

/-- Modelled from the spec (§4.1 step 3 and step 4b): the version-fragment
acceptance condition in the spec's words, to be compared with the source's
`isVersionStr`. -/
def isVersionStrSpec (s : List Char) : Prop :=
  (∃ c rest, s = c :: rest ∧ c.isDigit = true ∧ ∀ x ∈ rest, isVerChar x = true) ∨
  (∃ c rest, s = 'v' :: c :: rest ∧ c.isDigit = true ∧ ∀ x ∈ c :: rest, isVerChar x = true)

/-- One step of `Store::get_unique` (`src/store/mod.rs` lines 201-226). The
accumulator pairs the `unique` set (a list keyed by name) with the
`duplicates` name list; `unique.get`/`remove` act by name because the
source's `Hash`/`PartialEq` for `Store` use only the name. -/
def getUniqueStep (acc : List Store × List String) (store : Store) :
    List Store × List String :=
  if store.name ∈ acc.2 then acc
  else
    match acc.1.find? (fun e => e.name == store.name) with
    | some existing =>
      let newer := max existing.register_time store.register_time
      let older := min existing.register_time store.register_time
      if newer - older < 3600 ∧ existing.version ≠ store.version then
        (acc.1.filter (fun e => e.name != store.name), store.name :: acc.2)
      else acc
    | none => (store :: acc.1, acc.2)

/-- Embeds `Store::get_unique` (`src/store/mod.rs` lines 201-226): fold the
record stream (ordered by descending registration time by the database query)
through `getUniqueStep` and return the surviving unique records. -/
def getUnique (stores : List Store) : List Store :=
  (stores.foldl getUniqueStep ([], [])).1

/-- A record of the name-keyed diffing layer, embedding `StorePath` from
`src/store.rs` (fields `name`, `version`; the `path` origin field is I/O
metadata never read by the diff/partition logic and is omitted). The suffix of
the newer parser is folded into `name` by `identKey`, mirroring
`StorePath::parse` lines 97-103. -/
structure StorePath where
  name : String
  version : String
deriving DecidableEq, Repr

/-- Embeds `StoreDiff` from `src/store/diff.rs` (fields `name`, `ver_from`,
`ver_to`). -/
structure StoreDiff where
  name : String
  ver_from : String
  ver_to : String
deriving DecidableEq, Repr

/-- Embeds `StoreDiff::from_store` (`src/store/diff.rs` lines 15-27, identical
to `get_store_diff` in `src/store.rs` lines 278-290): no change when versions
are equal, otherwise a change carrying the new record's name and both
versions. -/
def StoreDiff.from_store (new old : StorePath) : Option StoreDiff :=
  if new.version = old.version then none
  else some ⟨new.name, old.version, new.version⟩

/-- Embeds `StoreDiff::from_store_list` (`src/store/diff.rs` lines 29-47,
identical to `get_store_diffs` in `src/store.rs` lines 292-310): for every
record of the new set, look up the old set by name (`old_stores.get(&new.name)`
on the name-keyed set) and apply the single-record rule. -/
def StoreDiff.from_store_list (newStores oldStores : List StorePath) :
    List StoreDiff :=
  newStores.filterMap fun new =>
    match oldStores.find? (fun old => old.name == new.name) with
    | some old => StoreDiff.from_store new old
    | none => none

/-- The identity key under which a parsed record enters the diffing layer,
embedding the suffix folding of `StorePath::parse` (`src/store.rs` lines
97-103): `name|suffix` when a suffix was captured, the bare name otherwise. -/
def identKey (s : Store) : String :=
  match s.suffix with
  | some sfx => s.name ++ "|" ++ sfx
  | none => s.name

/-- Embeds `SystemPackage` from `src/store.rs` (lines 140-144): a top-level
package's own record plus its dependency closure, a name-keyed set modelled as
a list. The partition functions consume only the map's values, so the
`SystemPackageMap` is modelled as the list of its packages. -/
structure SystemPackage where
  path : StorePath
  deps : List StorePath
deriving DecidableEq, Repr

/-- Embeds `DependencyScan` from `src/store/diff.rs` (lines 91-103): the first
version seen for a dependency name and whether a differing version was seen. -/
structure DependencyScan where
  last_version : String
  has_multiple_versions : Bool
deriving DecidableEq, Repr

/-- One dependency of the scan loop of `remove_global_deps`
(`src/store/diff.rs` lines 108-123, identical to `isolate_global_dependencies`
in `src/store.rs` lines 366-381): the `ver_tracker` hash map is modelled as a
function from names to optional entries; an occupied entry flags
`has_multiple_versions` when the version differs, a vacant entry records the
version with the flag unset. -/
def scanStep (tracker : String → Option DependencyScan) (dep : StorePath) :
    String → Option DependencyScan :=
  fun n =>
    if n = dep.name then
      match tracker dep.name with
      | some entry =>
        some ⟨entry.last_version,
              entry.has_multiple_versions || (dep.version != entry.last_version)⟩
      | none => some ⟨dep.version, false⟩
    else tracker n

/-- The effect of `scanStep` on the single tracked name it touches; used to
characterise the scan as a per-name fold. -/
def stepAt (o : Option DependencyScan) (dep : StorePath) : Option DependencyScan :=
  match o with
  | some entry =>
    some ⟨entry.last_version,
          entry.has_multiple_versions || (dep.version != entry.last_version)⟩
  | none => some ⟨dep.version, false⟩

/-- All dependency occurrences across all packages, in the order the nested
scan loop visits them. -/
def allDeps (pkgs : List SystemPackage) : List StorePath :=
  pkgs.flatMap fun p => p.deps

/-- The final `ver_tracker` state after the scan phase of
`remove_global_deps` (`src/store/diff.rs` lines 106-123). -/
def depTracker (pkgs : List SystemPackage) : String → Option DependencyScan :=
  (allDeps pkgs).foldl scanStep (fun _ => none)

/-- Membership of a name in the `dep_names` extraction list of
`remove_global_deps` (`src/store/diff.rs` lines 125-134): tracked and without
multiple versions. -/
def isGlobalDepName (pkgs : List SystemPackage) (n : String) : Bool :=
  match depTracker pkgs n with
  | some entry => !entry.has_multiple_versions
  | none => false

/-- The removal phase's effect on one package (`src/store/diff.rs` lines
136-145): every qualifying name is taken out of the package's name-keyed
dependency set (`pkg.deps.take(name)` for each name in `dep_names`). -/
def stripGlobal (pkgs : List SystemPackage) (p : SystemPackage) : SystemPackage :=
  { p with deps := p.deps.filter fun d => !isGlobalDepName pkgs d.name }

/-- Insertion into the accumulated shared set (`acc.insert(dep)` on a
name-keyed `HashSet`): a no-op when the name is already present. -/
def dedupStep (acc : List StorePath) (d : StorePath) : List StorePath :=
  if acc.any fun g => g.name == d.name then acc else acc ++ [d]

/-- Embeds `remove_global_deps` (`src/store/diff.rs` lines 105-150, identical
to `isolate_global_dependencies` in `src/store.rs` lines 361-411): scan every
package's dependencies, then remove every dependency whose name qualifies and
collect the removed records into the shared set, inserted once per name. The
source mutates `pkgs` in place and returns the shared set; the model returns
both. -/
def removeGlobalDeps (pkgs : List SystemPackage) :
    List SystemPackage × List StorePath :=
  (pkgs.map (stripGlobal pkgs),
   ((allDeps pkgs).filter fun d => isGlobalDepName pkgs d.name).foldl dedupStep [])

/-- The occurrences of a dependency name across all packages, in scan order. -/
def occurrences (pkgs : List SystemPackage) (n : String) : List StorePath :=
  (allDeps pkgs).filter fun d => d.name == n

/-- The package map of the source's `separate_global_deps` test
(`src/store/diff.rs` lines 215-274), used as a concrete witness input. -/
def scenarioPkgs : List SystemPackage :=
  [⟨⟨"test1", "1"⟩, [⟨"db", "4.8.30"⟩, ⟨"glibc", "2.27"⟩]⟩,
   ⟨⟨"test2", "1"⟩, [⟨"db", "5.0.0"⟩, ⟨"glibc", "2.27"⟩]⟩,
   ⟨⟨"test3", "1"⟩, [⟨"db", "4.8.30"⟩, ⟨"glibc", "2.27"⟩]⟩]

/-- Embeds `PackageDiff` from `src/store/diff.rs` (lines 56-61): an optional
primary-record change plus the package's dependency-level changes. -/
structure PackageDiff where
  name : String
  pkg : Option StoreDiff
  deps : List StoreDiff
deriving DecidableEq, Repr

/-- Embeds `sys_pkg_sorter` (`src/display.rs` lines 77-87, identical in
`src/main.rs` lines 177-187): package changes with a primary change sort
before those without; within a class, by dependency-change count descending,
then by name ascending. -/
def sysPkgSorter (new old : PackageDiff) : Ordering :=
  match new.pkg, old.pkg with
  | some _, some _ =>
    (compare old.deps.length new.deps.length).then (compare new.name old.name)
  | none, none =>
    (compare old.deps.length new.deps.length).then (compare new.name old.name)
  | some _, none => Ordering.lt
  | none, some _ => Ordering.gt

/-- The comparator of `diff.deps.sort_unstable_by` in `display_pkg_diff`
(`src/display.rs` line 65), as the boolean order used by sorting:
name-comparison not greater. -/
def depNameSorter (x y : StoreDiff) : Bool :=
  compare x.name y.name ≠ Ordering.gt

/-- The dependency-change sort applied before display
(`src/display.rs` line 65, `src/main.rs` line 150). -/
def sortDeps (deps : List StoreDiff) : List StoreDiff :=
  deps.mergeSort depNameSorter

/-- Rank of a package change in the comparator's primary criterion: 0 with a
primary-version change, 1 without. -/
def pkgRank (d : PackageDiff) : Nat :=
  if d.pkg.isSome then 0 else 1

/-- A fragment without any digit is never accepted as a version string. -/
theorem isVersionStr_no_digit {s : List Char} (h : ∀ c ∈ s, c.isDigit = false) :
    isVersionStr s = false := by
  cases s with
  | nil => rfl
  | cons c rest =>
    by_cases hv : c = 'v'
    · subst hv
      cases rest with
      | nil => rfl
      | cons d rest2 =>
        have hd : d.isDigit = false := h d (by simp)
        simp [isVersionStr, hd]
    · have hc : c.isDigit = false := h c (by simp)
      simp [isVersionStr, hv, hc]

/-- The version scan finds nothing in a path without any digit. -/
theorem findVersionStart_no_digit {l : List Char} (h : ∀ c ∈ l, c.isDigit = false) :
    ∀ frags, findVersionStart l frags = none := by
  intro frags
  induction frags with
  | nil => rfl
  | cons f rest ih =>
    cases rest with
    | nil =>
      have hs : isVersionStr (l.drop (f + 1)) = false :=
        isVersionStr_no_digit (fun c hc => h c (List.mem_of_mem_drop hc))
      simp [findVersionStart, hs]
    | cons g rest2 =>
      have hs : isVersionStr ((l.drop (f + 1)).take (g - (f + 1))) = false :=
        isVersionStr_no_digit
          (fun c hc => h c (List.mem_of_mem_drop (List.mem_of_mem_take hc)))
      simpa [findVersionStart, hs] using ih

/-- A stripped path containing no digit anywhere never parses to a record. -/
theorem parseStripped_no_digit (id rt : Nat) {l : List Char}
    (h : ∀ c ∈ l, c.isDigit = false) : parseStripped id rt l = none := by
  unfold parseStripped
  cases hd : dashIndices l with
  | nil => rfl
  | cons i rest =>
    cases rest with
    | nil =>
      have hv : (l.drop (i + 1)).any Char.isDigit = false := by
        simp only [List.any_eq_false]
        intro c hc
        simp [h c (List.mem_of_mem_drop hc)]
      simp [hv]
    | cons j rest2 =>
      have hfind := findVersionStart_no_digit h (i :: j :: rest2)
      simp [hfind]

/-- The source's version heuristic agrees with the spec's wording of it. -/
theorem isVersionStr_iff_spec (s : List Char) :
    isVersionStr s = true ↔ isVersionStrSpec s := by
  cases s with
  | nil => simp [isVersionStr, isVersionStrSpec]
  | cons c rest =>
    by_cases hv : c = 'v'
    · subst hv
      cases rest with
      | nil =>
        simp [isVersionStr, isVersionStrSpec]
      | cons d rest2 =>
        have hred : isVersionStr ('v' :: d :: rest2) =
            (d.isDigit && (d :: rest2).all isVerChar) := rfl
        rw [hred]
        constructor
        · intro h
          right
          refine ⟨d, rest2, rfl, ?_, ?_⟩
          · exact (Bool.and_eq_true _ _ |>.mp h).1
          · have := (Bool.and_eq_true _ _ |>.mp h).2
            simpa [List.all_eq_true] using this
        · rintro (⟨c', rest', heq, hdig, _⟩ | ⟨c', rest', heq, hdig, hall⟩)
          · rw [List.cons_eq_cons] at heq
            rw [← heq.1] at hdig
            simp at hdig
          · rw [List.cons_eq_cons] at heq
            obtain ⟨-, heq2⟩ := heq
            rw [List.cons_eq_cons] at heq2
            obtain ⟨hc', hrest'⟩ := heq2
            subst hc'
            subst hrest'
            rw [Bool.and_eq_true]
            refine ⟨hdig, ?_⟩
            simpa [List.all_eq_true] using hall
    · by_cases hc : c.isDigit
      · simp only [isVersionStr, if_neg hv, if_pos hc]
        constructor
        · intro h
          left
          refine ⟨c, rest, rfl, hc, ?_⟩
          have := List.all_eq_true.mp h
          intro x hx
          exact this x (List.mem_cons_of_mem _ hx)
        · rintro (⟨c', rest', heq, hdig, hall⟩ | ⟨c', rest', heq, hdig, hall⟩)
          · rw [List.cons_eq_cons] at heq
            obtain ⟨hc', hrest'⟩ := heq
            subst hc'; subst hrest'
            rw [List.all_eq_true]
            intro x hx
            rcases List.mem_cons.mp hx with h1 | h2
            · subst h1; simp [isVerChar, hdig]
            · exact hall x h2
          · rw [List.cons_eq_cons] at heq
            obtain ⟨hc', -⟩ := heq
            exact absurd (hc' ▸ hc) (by simp)
      · simp only [isVersionStr, if_neg hv, if_neg hc]
        constructor
        · intro h; simp at h
        · rintro (⟨c', rest', heq, hdig, hall⟩ | ⟨c', rest', heq, hdig, hall⟩)
          · rw [List.cons_eq_cons] at heq
            exact absurd (heq.1 ▸ hdig) (by simp [hc])
          · rw [List.cons_eq_cons] at heq
            exact absurd heq.1 hv

/-- C1: parsing reproduces exactly the spec's fixture fields — `glxinfo-8.4.0`
gives name `glxinfo`, version `8.4.0`, no suffix; `wine-wow-4.0-rc5-staging`
gives name `wine-wow`, version `4.0-rc5`, suffix `staging`; `ffmpeg-3.4.5-bin`
gives name `ffmpeg`, version `3.4.5`, suffix `bin`; `rpcs3-7788-4c59395` gives
name `rpcs3`, version `7788-4c59395`, no suffix; `fix-static.patch`, and more
generally any input containing no digit anywhere, yields no record. -/
theorem C1_round_trip_parse :
    parseStripped 0 0 "glxinfo-8.4.0".toList =
        some ⟨0, "glxinfo", "8.4.0", none, 0⟩ ∧
    parseStripped 0 0 "wine-wow-4.0-rc5-staging".toList =
        some ⟨0, "wine-wow", "4.0-rc5", some "staging", 0⟩ ∧
    parseStripped 0 0 "ffmpeg-3.4.5-bin".toList =
        some ⟨0, "ffmpeg", "3.4.5", some "bin", 0⟩ ∧
    parseStripped 0 0 "rpcs3-7788-4c59395".toList =
        some ⟨0, "rpcs3", "7788-4c59395", none, 0⟩ ∧
    parseStripped 0 0 "fix-static.patch".toList = none ∧
    ∀ (id rt : Nat) (l : List Char),
      (∀ c ∈ l, c.isDigit = false) → parseStripped id rt l = none := by
  refine ⟨by decide, by decide, by decide, by decide, by decide, ?_⟩
  intro id rt l h
  exact parseStripped_no_digit id rt h

/-- Witness for C1: the no-digit rejection rule applied at a concrete input. -/
theorem C1_round_trip_parse_witness :
    parseStripped 0 0 "no-digits-here".toList = none :=
  C1_round_trip_parse.2.2.2.2.2 0 0 "no-digits-here".toList (by decide)

/-- C7: for a stripped input splitting on `-` into exactly 2 fragments
(exactly one delimiter, at position `i`), the parser accepts with
name = fragment 0 and version = fragment 1 iff fragment 1 contains at least
one digit, and rejects when fragment 1 contains no digit. -/
theorem C7_two_fragment_fast_path (id rt : Nat) (l : List Char) (i : Nat)
    (hfrag : dashIndices l = [i]) :
    (parseStripped id rt l =
        some ⟨id, (l.take i).asString, (l.drop (i + 1)).asString, none, rt⟩ ↔
      (l.drop (i + 1)).any Char.isDigit = true) ∧
    ((l.drop (i + 1)).any Char.isDigit = false → parseStripped id rt l = none) := by
  unfold parseStripped
  rw [hfrag]
  by_cases h : (l.drop (i + 1)).any Char.isDigit
  · simp [h]
  · simp [h]

/-- Witness for C7: the fast path evaluated at `pcre-8.42`. -/
theorem C7_two_fragment_fast_path_witness :
    parseStripped 0 0 "pcre-8.42".toList = some ⟨0, "pcre", "8.42", none, 0⟩ :=
  (C7_two_fragment_fast_path 0 0 "pcre-8.42".toList 4 (by decide)).1.mpr (by decide)

/-- C8: the version heuristic accepts a fragment iff it starts with a digit,
or with `v` immediately followed by a digit, and thereafter contains only
digits, lowercase letters, `.` or `_`; in particular a bare `v` is rejected. -/
theorem C8_version_heuristic :
    (∀ s : List Char, isVersionStr s = true ↔ isVersionStrSpec s) ∧
    isVersionStr ['v'] = false :=
  ⟨isVersionStr_iff_spec, rfl⟩

/-- Witness for C8: the heuristic's acceptance of `8.4.0` transported through
the equivalence at a concrete input. -/
theorem C8_version_heuristic_witness : isVersionStrSpec "8.4.0".toList :=
  (C8_version_heuristic.1 "8.4.0".toList).mp (by decide)

/-- C4: for two same-named records with differing versions arriving in
descending registration-time order (`a` then `b`), deduplication drops the
name entirely when the registration times differ by less than one hour, keeps
the later-registered record `a` when they differ by an hour or more, and drops
the name when registration times are unavailable (both zero). -/
theorem C4_dedup (a b : Store) (hname : a.name = b.name)
    (hver : a.version ≠ b.version) (hord : b.register_time ≤ a.register_time) :
    (a.register_time - b.register_time < 3600 → getUnique [a, b] = []) ∧
    (3600 ≤ a.register_time - b.register_time → getUnique [a, b] = [a]) ∧
    (a.register_time = 0 → b.register_time = 0 → getUnique [a, b] = []) := by
  have hstep1 : getUniqueStep ([], []) a = ([a], []) := by
    simp [getUniqueStep]
  have hmax : max a.register_time b.register_time = a.register_time :=
    Nat.max_eq_left hord
  have hmin : min a.register_time b.register_time = b.register_time :=
    Nat.min_eq_right hord
  have hfind : [a].find? (fun e => e.name == b.name) = some a := by
    simp [List.find?, hname]
  refine ⟨?_, ?_, ?_⟩
  · intro hlt
    simp [getUnique, hstep1, getUniqueStep, hfind, hmax, hmin, hlt, hver, hname]
  · intro hge
    have hnlt : ¬(a.register_time - b.register_time < 3600) := by omega
    simp [getUnique, hstep1, getUniqueStep, hfind, hmax, hmin, hnlt]
  · intro ha hb
    have hlt : a.register_time - b.register_time < 3600 := by omega
    simp [getUnique, hstep1, getUniqueStep, hfind, hmax, hmin, hlt, hver, hname]

/-- Witness for C4: two `gcc` records forty minutes apart are both dropped;
two `pcre` records two hours apart resolve to the later one. -/
theorem C4_dedup_witness :
    getUnique [⟨0, "gcc", "7.4.0", none, 9000⟩, ⟨1, "gcc", "7.3.0", none, 6600⟩]
      = [] ∧
    getUnique [⟨0, "pcre", "8.42", none, 9200⟩, ⟨1, "pcre", "8.41", none, 2000⟩]
      = [⟨0, "pcre", "8.42", none, 9200⟩] :=
  ⟨(C4_dedup ⟨0, "gcc", "7.4.0", none, 9000⟩ ⟨1, "gcc", "7.3.0", none, 6600⟩
      rfl (by decide) (by decide)).1 (by decide),
   (C4_dedup ⟨0, "pcre", "8.42", none, 9200⟩ ⟨1, "pcre", "8.41", none, 2000⟩
      rfl (by decide) (by decide)).2.1 (by decide)⟩

/-- C5: for records sharing the same identity, the single-record diff returns
no change iff the versions are equal; when the versions differ it returns
exactly one change carrying the shared name, the old version and the new
version; and diffing any record against itself yields no change. -/
theorem C5_single_diff (new old : StorePath) (_hname : new.name = old.name) :
    (StoreDiff.from_store new old = none ↔ new.version = old.version) ∧
    (new.version ≠ old.version →
      StoreDiff.from_store new old = some ⟨new.name, old.version, new.version⟩) ∧
    (∀ x : StorePath, StoreDiff.from_store x x = none) := by
  refine ⟨?_, ?_, ?_⟩
  · by_cases h : new.version = old.version <;> simp [StoreDiff.from_store, h]
  · intro h
    simp [StoreDiff.from_store, h]
  · intro x
    simp [StoreDiff.from_store]

/-- Witness for C5: a concrete version change is reported with both versions. -/
theorem C5_single_diff_witness :
    StoreDiff.from_store ⟨"glxinfo", "8.5.0"⟩ ⟨"glxinfo", "8.4.0"⟩ =
      some ⟨"glxinfo", "8.4.0", "8.5.0"⟩ :=
  (C5_single_diff ⟨"glxinfo", "8.5.0"⟩ ⟨"glxinfo", "8.4.0"⟩ rfl).2.1 (by decide)

/-- Records with the same base name but different suffixes are given distinct
identity keys by the suffix folding. -/
theorem identKey_ne_of_suffix_ne {a b : Store} (hname : a.name = b.name)
    (hsfx : a.suffix ≠ b.suffix) : identKey a ≠ identKey b := by
  cases ha : a.suffix with
  | none =>
    cases hb : b.suffix with
    | none => exact absurd (ha.trans hb.symm) hsfx
    | some s =>
      intro h
      simp only [identKey, ha, hb] at h
      rw [hname] at h
      have hlen := congrArg String.length h
      rw [String.length_append, String.length_append] at hlen
      have hpipe : ("|" : String).length = 1 := rfl
      rw [hpipe] at hlen
      omega
  | some s =>
    cases hb : b.suffix with
    | none =>
      intro h
      simp only [identKey, ha, hb] at h
      rw [hname] at h
      have hlen := congrArg String.length h
      rw [String.length_append, String.length_append] at hlen
      have hpipe : ("|" : String).length = 1 := rfl
      rw [hpipe] at hlen
      omega
    | some t =>
      intro h
      simp only [identKey, ha, hb] at h
      rw [hname] at h
      have hst : s = t := by
        have hd := congrArg String.data h
        simp only [String.data_append] at hd
        rw [List.append_assoc, List.append_assoc] at hd
        have h2 := List.append_cancel_left hd
        have h3 := List.append_cancel_left h2
        exact String.ext h3
      rw [ha, hb, hst] at hsfx
      exact hsfx rfl

/-- C6: two records sharing a name whose suffixes differ (one present and one
absent, or both present but unequal) enter the diffing layer under distinct
identity keys, so the set-level diff pairing records by identity emits no
change between them, whatever their versions. -/
theorem C6_suffix_mismatch (a b : Store) (hname : a.name = b.name)
    (hsfx : a.suffix ≠ b.suffix) :
    identKey a ≠ identKey b ∧
    ∀ (va vb : String),
      StoreDiff.from_store_list [⟨identKey a, va⟩] [⟨identKey b, vb⟩] = [] := by
  have hkey := identKey_ne_of_suffix_ne hname hsfx
  refine ⟨hkey, ?_⟩
  intro va vb
  have hne : (identKey b == identKey a) = false := by
    simpa using Ne.symm hkey
  simp [StoreDiff.from_store_list, List.find?, hne]

/-- Witness for C6: `ffmpeg` with suffix `bin` against plain `ffmpeg` with a
different version produces no change. -/
theorem C6_suffix_mismatch_witness :
    StoreDiff.from_store_list
      [⟨identKey ⟨0, "ffmpeg", "3.4.5", some "bin", 0⟩, "3.4.5"⟩]
      [⟨identKey ⟨0, "ffmpeg", "3.4.4", none, 0⟩, "3.4.4"⟩] = [] :=
  (C6_suffix_mismatch ⟨0, "ffmpeg", "3.4.5", some "bin", 0⟩
    ⟨0, "ffmpeg", "3.4.4", none, 0⟩ rfl (by decide)).2 "3.4.5" "3.4.4"

/-- An emitted set-level diff entry carries the new record's name, and its
lookup in the old set succeeded on that name. -/
theorem from_store_list_emit {os : List StorePath} {new : StorePath}
    {d : StoreDiff}
    (h : (match os.find? (fun old => old.name == new.name) with
          | some old => StoreDiff.from_store new old
          | none => none) = some d) :
    d.name = new.name ∧ ∃ y ∈ os, y.name = new.name := by
  cases hf : os.find? (fun old => old.name == new.name) with
  | none => rw [hf] at h; exact absurd h (by simp)
  | some old =>
    rw [hf] at h
    have hmem := List.mem_of_find?_eq_some hf
    have hon : old.name = new.name := by simpa using List.find?_some hf
    have h' : StoreDiff.from_store new old = some d := h
    unfold StoreDiff.from_store at h'
    by_cases hv : new.version = old.version
    · rw [if_pos hv] at h'; exact absurd h' (by simp)
    · rw [if_neg hv] at h'
      have hd : d = ⟨new.name, old.version, new.version⟩ := by
        injection h' with h2; exact h2.symm
      exact ⟨by rw [hd], old, hmem, hon⟩

/-- C10: for input record sets each unique by name, the set-level diff emits
at most one change per name, and every emitted change names an identity
present in both the new set and the old set. -/
theorem C10_set_diff (ns os : List StorePath)
    (hn : ns.Pairwise (fun x y => x.name ≠ y.name))
    (_ho : os.Pairwise (fun x y => x.name ≠ y.name)) :
    (StoreDiff.from_store_list ns os).Pairwise (fun x y => x.name ≠ y.name) ∧
    ∀ d ∈ StoreDiff.from_store_list ns os,
      (∃ x ∈ ns, x.name = d.name) ∧ (∃ y ∈ os, y.name = d.name) := by
  constructor
  · rw [StoreDiff.from_store_list, List.pairwise_filterMap]
    refine hn.imp (fun {x y} hxy => ?_)
    intro b hb b' hb'
    rw [Option.mem_def] at hb hb'
    have h1 := (from_store_list_emit hb).1
    have h2 := (from_store_list_emit hb').1
    rw [h1, h2]
    exact hxy
  · intro d hd
    rw [StoreDiff.from_store_list, List.mem_filterMap] at hd
    obtain ⟨new, hnew, hsome⟩ := hd
    obtain ⟨h1, y, hy, hyn⟩ := from_store_list_emit hsome
    exact ⟨⟨new, hnew, h1.symm⟩, ⟨y, hy, hyn.trans h1.symm⟩⟩

/-- Witness for C10: the diff of two concrete two-record sets has pairwise
distinct names and only names present on both sides. -/
theorem C10_set_diff_witness :
    (StoreDiff.from_store_list
        [⟨"glxinfo", "8.5.0"⟩, ⟨"ffmpeg", "3.4.5"⟩]
        [⟨"glxinfo", "8.4.0"⟩, ⟨"ffmpeg", "3.4.5"⟩]).Pairwise
      (fun x y => x.name ≠ y.name) ∧
    ∀ d ∈ StoreDiff.from_store_list
        [⟨"glxinfo", "8.5.0"⟩, ⟨"ffmpeg", "3.4.5"⟩]
        [⟨"glxinfo", "8.4.0"⟩, ⟨"ffmpeg", "3.4.5"⟩],
      (∃ x ∈ ([⟨"glxinfo", "8.5.0"⟩, ⟨"ffmpeg", "3.4.5"⟩] : List StorePath),
        x.name = d.name) ∧
      (∃ y ∈ ([⟨"glxinfo", "8.4.0"⟩, ⟨"ffmpeg", "3.4.5"⟩] : List StorePath),
        y.name = d.name) :=
  C10_set_diff _ _ (by decide) (by decide)

/-- `scanStep` acts pointwise: only the scanned dependency's name changes. -/
theorem scanStep_apply (t : String → Option DependencyScan) (dep : StorePath)
    (n : String) :
    scanStep t dep n = if n = dep.name then stepAt (t n) dep else t n := by
  unfold scanStep stepAt
  by_cases h : n = dep.name
  · rw [if_pos h, if_pos h, h]
  · rw [if_neg h, if_neg h]

/-- The scan fold restricted to one name is the per-name fold over that
name's occurrences. -/
theorem foldl_scanStep_apply (l : List StorePath)
    (t : String → Option DependencyScan) (n : String) :
    (l.foldl scanStep t) n =
      (l.filter fun d => d.name == n).foldl stepAt (t n) := by
  induction l generalizing t with
  | nil => rfl
  | cons d l ih =>
    rw [List.foldl_cons]
    by_cases h : d.name = n
    · have hfil : ((d :: l).filter fun x => x.name == n) =
          d :: (l.filter fun x => x.name == n) := by
        simp [List.filter_cons, h]
      rw [hfil, List.foldl_cons, ih, scanStep_apply, if_pos h.symm]
    · have hfil : ((d :: l).filter fun x => x.name == n) =
          l.filter fun x => x.name == n := by
        simp [List.filter_cons, h]
      rw [hfil, ih, scanStep_apply, if_neg (fun hn => h hn.symm)]

/-- The per-name fold keeps the first version and flags any later occurrence
whose version differs from it. -/
theorem foldl_stepAt_some (vs : List StorePath) (v0 : String) (f : Bool) :
    vs.foldl stepAt (some ⟨v0, f⟩) =
      some ⟨v0, f || vs.any fun d => d.version != v0⟩ := by
  induction vs generalizing f with
  | nil => simp
  | cons d vs ih =>
    rw [List.foldl_cons]
    have hstep : stepAt (some ⟨v0, f⟩) d = some ⟨v0, f || (d.version != v0)⟩ := rfl
    rw [hstep, ih]
    simp [List.any_cons, Bool.or_assoc]

/-- The final tracker entry for a name: absent without occurrences, otherwise
the first occurrence's version with the multiple-versions flag. -/
theorem depTracker_eq (pkgs : List SystemPackage) (n : String) :
    depTracker pkgs n =
      match occurrences pkgs n with
      | [] => none
      | v :: vs => some ⟨v.version, vs.any fun d => d.version != v.version⟩ := by
  rw [depTracker, foldl_scanStep_apply]
  cases hocc : occurrences pkgs n with
  | nil => rw [occurrences] at hocc; rw [hocc]; rfl
  | cons v vs =>
    rw [occurrences] at hocc
    rw [hocc, List.foldl_cons]
    have hstep : stepAt none v = some ⟨v.version, false⟩ := rfl
    rw [hstep, foldl_stepAt_some]
    simp

/-- A name qualifies for extraction iff it occurs and every occurrence agrees
with the first occurrence's version. -/
theorem isGlobalDepName_iff (pkgs : List SystemPackage) (n : String) :
    isGlobalDepName pkgs n = true ↔
      ∃ v vs, occurrences pkgs n = v :: vs ∧ ∀ d ∈ vs, d.version = v.version := by
  rw [isGlobalDepName, depTracker_eq]
  cases hocc : occurrences pkgs n with
  | nil =>
    simp
  | cons v vs =>
    simp only [Bool.not_eq_true']
    constructor
    · intro h
      refine ⟨v, vs, rfl, ?_⟩
      intro d hd
      have := List.any_eq_false.mp h d hd
      simpa using this
    · rintro ⟨v', vs', heq, hall⟩
      rw [List.cons_eq_cons] at heq
      obtain ⟨hv, hvs⟩ := heq
      subst hv; subst hvs
      rw [List.any_eq_false]
      intro d hd
      simp [hall d hd]

/-- Occurrence-list membership unfolded to package membership. -/
theorem mem_occurrences {pkgs : List SystemPackage} {n : String} {d : StorePath} :
    d ∈ occurrences pkgs n ↔ (∃ p ∈ pkgs, d ∈ p.deps) ∧ d.name = n := by
  rw [occurrences, List.mem_filter, allDeps, List.mem_flatMap]
  simp

/-- A name qualifies for extraction iff some package depends on it and all
packages depending on it agree on its version. -/
theorem isGlobalDepName_iff_agree (pkgs : List SystemPackage) (n : String) :
    isGlobalDepName pkgs n = true ↔
      ((∃ p ∈ pkgs, ∃ d ∈ p.deps, d.name = n) ∧
       ∀ p ∈ pkgs, ∀ d ∈ p.deps, ∀ q ∈ pkgs, ∀ e ∈ q.deps,
         d.name = n → e.name = n → d.version = e.version) := by
  rw [isGlobalDepName_iff]
  constructor
  · rintro ⟨v, vs, heq, hall⟩
    have hv_mem : v ∈ occurrences pkgs n := by
      rw [heq]; exact List.mem_cons_self _ _
    have hocc_ver : ∀ x ∈ occurrences pkgs n, x.version = v.version := by
      intro x hx
      rw [heq] at hx
      rcases List.mem_cons.mp hx with h | h
      · rw [h]
      · exact hall x h
    obtain ⟨⟨p, hp, hdp⟩, hvn⟩ := mem_occurrences.mp hv_mem
    refine ⟨⟨p, hp, v, hdp, hvn⟩, ?_⟩
    intro p hp d hd q hq e he hdn hen
    have h1 : d ∈ occurrences pkgs n := mem_occurrences.mpr ⟨⟨p, hp, hd⟩, hdn⟩
    have h2 : e ∈ occurrences pkgs n := mem_occurrences.mpr ⟨⟨q, hq, he⟩, hen⟩
    rw [hocc_ver d h1, hocc_ver e h2]
  · rintro ⟨⟨p, hp, d, hd, hdn⟩, hagree⟩
    have hd_mem : d ∈ occurrences pkgs n := mem_occurrences.mpr ⟨⟨p, hp, hd⟩, hdn⟩
    cases hocc : occurrences pkgs n with
    | nil => rw [hocc] at hd_mem; exact absurd hd_mem (List.not_mem_nil _)
    | cons v vs =>
      refine ⟨v, vs, rfl, ?_⟩
      intro x hx
      have hx_mem : x ∈ occurrences pkgs n := by
        rw [hocc]; exact List.mem_cons_of_mem _ hx
      have hv_mem : v ∈ occurrences pkgs n := by
        rw [hocc]; exact List.mem_cons_self _ _
      obtain ⟨⟨px, hpx, hdx⟩, hxn⟩ := mem_occurrences.mp hx_mem
      obtain ⟨⟨pv, hpv, hdv⟩, hvn⟩ := mem_occurrences.mp hv_mem
      exact hagree px hpx x hdx pv hpv v hdv hxn hvn

/-- Idempotent insertion preserves exactly the names of the accumulator and
of the inserted list. -/
theorem dedup_names (l : List StorePath) (acc : List StorePath) (n : String) :
    (∃ g ∈ l.foldl dedupStep acc, g.name = n) ↔
      (∃ g ∈ acc, g.name = n) ∨ ∃ g ∈ l, g.name = n := by
  induction l generalizing acc with
  | nil => simp
  | cons d l ih =>
    rw [List.foldl_cons, ih]
    have hstep : (∃ g ∈ dedupStep acc d, g.name = n) ↔
        (∃ g ∈ acc, g.name = n) ∨ d.name = n := by
      rw [dedupStep]
      by_cases h : acc.any fun g => g.name == d.name
      · rw [if_pos h]
        constructor
        · exact Or.inl
        · rintro (hg | hdn)
          · exact hg
          · obtain ⟨g, hg, hgd⟩ := List.any_eq_true.mp h
            exact ⟨g, hg, by rw [(by simpa using hgd : g.name = d.name), hdn]⟩
      · rw [if_neg h]
        constructor
        · rintro ⟨g, hg, hgn⟩
          rcases List.mem_append.mp hg with h1 | h1
          · exact Or.inl ⟨g, h1, hgn⟩
          · rw [List.mem_singleton.mp h1] at hgn
            exact Or.inr hgn
        · rintro (⟨g, hg, hgn⟩ | hdn)
          · exact ⟨g, List.mem_append_left _ hg, hgn⟩
          · exact ⟨d, List.mem_append_right _ (List.mem_singleton_self d), hdn⟩
    rw [hstep]
    simp only [List.mem_cons]
    constructor
    · rintro ((hacc | hdn) | ⟨g, hg, hgn⟩)
      · exact Or.inl hacc
      · exact Or.inr ⟨d, Or.inl rfl, hdn⟩
      · exact Or.inr ⟨g, Or.inr hg, hgn⟩
    · rintro (hacc | ⟨g, hg | hg, hgn⟩)
      · exact Or.inl (Or.inl hacc)
      · exact Or.inl (Or.inr (hg ▸ hgn))
      · exact Or.inr ⟨g, hg, hgn⟩

/-- A name is in the returned shared set iff it qualifies for extraction. -/
theorem mem_globals_iff (pkgs : List SystemPackage) (n : String) :
    (∃ g ∈ (removeGlobalDeps pkgs).2, g.name = n) ↔
      isGlobalDepName pkgs n = true := by
  rw [removeGlobalDeps]
  rw [dedup_names]
  simp only [List.not_mem_nil, false_and, exists_false, exists_prop, false_or]
  constructor
  · rintro ⟨g, hg, hgn⟩
    rw [List.mem_filter] at hg
    rw [← hgn]
    exact hg.2
  · intro hglob
    obtain ⟨v, vs, hocc, -⟩ := (isGlobalDepName_iff pkgs n).mp hglob
    have hv_mem : v ∈ occurrences pkgs n := by
      rw [hocc]; exact List.mem_cons_self _ _
    rw [occurrences, List.mem_filter] at hv_mem
    have hvn : v.name = n := by simpa using hv_mem.2
    refine ⟨v, List.mem_filter.mpr ⟨hv_mem.1, ?_⟩, hvn⟩
    rw [hvn]
    exact hglob

/-- C2: after partition, a dependency name is in the returned shared set iff
some package depends on it and every package that depends on it carries the
identical version for it; and a name appearing with two different versions
remains in every package's own dependency set and is absent from the shared
set. -/
theorem C2_partition (pkgs : List SystemPackage) (n : String) :
    ((∃ g ∈ (removeGlobalDeps pkgs).2, g.name = n) ↔
      ((∃ p ∈ pkgs, ∃ d ∈ p.deps, d.name = n) ∧
       ∀ p ∈ pkgs, ∀ d ∈ p.deps, ∀ q ∈ pkgs, ∀ e ∈ q.deps,
         d.name = n → e.name = n → d.version = e.version)) ∧
    ((∃ p ∈ pkgs, ∃ d ∈ p.deps, ∃ q ∈ pkgs, ∃ e ∈ q.deps,
        d.name = n ∧ e.name = n ∧ d.version ≠ e.version) →
      (∀ p ∈ pkgs, ∀ d ∈ p.deps, d.name = n → d ∈ (stripGlobal pkgs p).deps) ∧
      ¬∃ g ∈ (removeGlobalDeps pkgs).2, g.name = n) := by
  have hmain := (mem_globals_iff pkgs n).trans (isGlobalDepName_iff_agree pkgs n)
  refine ⟨hmain, ?_⟩
  rintro ⟨p, hp, d, hd, q, hq, e, he, hdn, hen, hne⟩
  have hnglob : isGlobalDepName pkgs n = false := by
    rw [Bool.eq_false_iff]
    intro hg
    exact hne (((isGlobalDepName_iff_agree pkgs n).mp hg).2
      p hp d hd q hq e he hdn hen)
  constructor
  · intro p' hp' d' hd' hd'n
    rw [stripGlobal, List.mem_filter]
    refine ⟨hd', ?_⟩
    rw [hd'n, hnglob]
    rfl
  · rw [mem_globals_iff, hnglob]
    simp

/-- Witness for C2 on the source's test scenario: `glibc` (agreed version
2.27) is shared, `db` (versions 4.8.30 and 5.0.0) is not. -/
theorem C2_partition_witness :
    (∃ g ∈ (removeGlobalDeps scenarioPkgs).2, g.name = "glibc") ∧
    ¬∃ g ∈ (removeGlobalDeps scenarioPkgs).2, g.name = "db" :=
  ⟨(C2_partition scenarioPkgs "glibc").1.mpr (by decide),
   ((C2_partition scenarioPkgs "db").2 (by decide)).2⟩

/-- C3: after partition, no dependency name occurs both in some partitioned
package's dependency set and in the returned shared set. -/
theorem C3_mutual_exclusion (pkgs : List SystemPackage) :
    ∀ p ∈ (removeGlobalDeps pkgs).1, ∀ n : String,
      ¬((∃ d ∈ p.deps, d.name = n) ∧
        ∃ g ∈ (removeGlobalDeps pkgs).2, g.name = n) := by
  rintro p' hp' n ⟨⟨d, hd, hdn⟩, hg⟩
  rw [removeGlobalDeps] at hp'
  obtain ⟨p, hp, hp'eq⟩ := List.mem_map.mp hp'
  rw [← hp'eq] at hd
  rw [stripGlobal] at hd
  rw [List.mem_filter] at hd
  have hglob := (mem_globals_iff pkgs n).mp hg
  rw [← hdn] at hglob
  have := hd.2
  rw [hglob] at this
  exact absurd this (by decide)

/-- Witness for C3 on the source's test scenario, at the partitioned `test1`
package and the name `db`. -/
theorem C3_mutual_exclusion_witness :
    ¬((∃ d ∈ (SystemPackage.mk ⟨"test1", "1"⟩ [⟨"db", "4.8.30"⟩] : SystemPackage).deps,
        d.name = "db") ∧
      ∃ g ∈ (removeGlobalDeps scenarioPkgs).2, g.name = "db") :=
  C3_mutual_exclusion scenarioPkgs
    (SystemPackage.mk ⟨"test1", "1"⟩ [⟨"db", "4.8.30"⟩]) (by decide) "db"

/-- Swapping a linear-order comparison swaps its arguments. -/
theorem compare_swap_eq {α : Type _} [LinearOrder α] (a b : α) :
    (compare a b).swap = compare b a := by
  rcases lt_trichotomy a b with h | h | h
  · rw [compare_lt_iff_lt.mpr h, compare_gt_iff_gt.mpr h]; rfl
  · subst h
    rw [compare_eq_iff_eq.mpr rfl]; rfl
  · rw [compare_gt_iff_gt.mpr h, compare_lt_iff_lt.mpr h]; rfl

/-- The comparator is the lexicographic composition of primary-change rank,
reversed dependency count, and name. -/
theorem sysPkgSorter_decompose (a b : PackageDiff) :
    sysPkgSorter a b = (compare (pkgRank a) (pkgRank b)).then
      ((compare b.deps.length a.deps.length).then (compare a.name b.name)) := by
  unfold sysPkgSorter pkgRank
  cases ha : a.pkg <;> cases hb : b.pkg <;> simp [Option.isSome] <;> rfl

/-- Characterisation of when the comparator orders `a` strictly first. -/
theorem sysPkgSorter_lt_iff (a b : PackageDiff) :
    sysPkgSorter a b = Ordering.lt ↔
      (pkgRank a < pkgRank b ∨
       (pkgRank a = pkgRank b ∧
        (b.deps.length < a.deps.length ∨
         (b.deps.length = a.deps.length ∧ a.name < b.name)))) := by
  rw [sysPkgSorter_decompose, Ordering.then_eq_lt, Ordering.then_eq_lt,
      compare_lt_iff_lt, compare_eq_iff_eq, compare_lt_iff_lt,
      compare_eq_iff_eq, compare_lt_iff_lt]

/-- The comparator returns `eq` exactly on equal sort keys. -/
theorem sysPkgSorter_eq_iff (a b : PackageDiff) :
    sysPkgSorter a b = Ordering.eq ↔
      (pkgRank a = pkgRank b ∧ b.deps.length = a.deps.length ∧ a.name = b.name) := by
  rw [sysPkgSorter_decompose, Ordering.then_eq_eq, Ordering.then_eq_eq,
      compare_eq_iff_eq, compare_eq_iff_eq, compare_eq_iff_eq]

/-- Equal ranks mean the same primary-change status. -/
theorem pkgRank_eq_iff (a b : PackageDiff) :
    pkgRank a = pkgRank b ↔ a.pkg.isSome = b.pkg.isSome := by
  unfold pkgRank
  cases a.pkg <;> cases b.pkg <;> simp [Option.isSome]

/-- The comparator is antisymmetric under argument swap. -/
theorem sysPkgSorter_swap (a b : PackageDiff) :
    sysPkgSorter b a = (sysPkgSorter a b).swap := by
  rw [sysPkgSorter_decompose, sysPkgSorter_decompose,
      Ordering.swap_then, Ordering.swap_then,
      compare_swap_eq, compare_swap_eq, compare_swap_eq]

/-- The strict part of the comparator is transitive. -/
theorem sysPkgSorter_trans {a b c : PackageDiff}
    (hab : sysPkgSorter a b = Ordering.lt)
    (hbc : sysPkgSorter b c = Ordering.lt) :
    sysPkgSorter a c = Ordering.lt := by
  rw [sysPkgSorter_lt_iff] at hab hbc ⊢
  rcases hab with h1 | ⟨h1, h2 | ⟨h2, h3⟩⟩ <;>
    rcases hbc with g1 | ⟨g1, g2 | ⟨g2, g3⟩⟩
  · left; omega
  · left; omega
  · left; omega
  · left; omega
  · right; exact ⟨by omega, Or.inl (by omega)⟩
  · right; exact ⟨by omega, Or.inl (by omega)⟩
  · left; omega
  · right; exact ⟨by omega, Or.inl (by omega)⟩
  · right; exact ⟨by omega, Or.inr ⟨by omega, lt_trans h3 g3⟩⟩

/-- The dependency-change sort yields a list ascending by name. -/
theorem sortDeps_sorted (deps : List StoreDiff) :
    (sortDeps deps).Pairwise fun x y => x.name ≤ y.name := by
  have htrans : ∀ x y z : StoreDiff, depNameSorter x y = true →
      depNameSorter y z = true → depNameSorter x z = true := by
    intro x y z hxy hyz
    have h1 : x.name ≤ y.name := compare_le_iff_le.mp (by simpa [depNameSorter] using hxy)
    have h2 : y.name ≤ z.name := compare_le_iff_le.mp (by simpa [depNameSorter] using hyz)
    simpa [depNameSorter] using compare_le_iff_le.mpr (le_trans h1 h2)
  have htotal : ∀ x y : StoreDiff, (depNameSorter x y || depNameSorter y x) = true := by
    intro x y
    rcases le_total x.name y.name with h | h
    · have := compare_le_iff_le.mpr h
      simp [depNameSorter, this]
    · have := compare_le_iff_le.mpr h
      simp [depNameSorter, this]
  have hs := List.sorted_mergeSort htrans htotal deps
  refine hs.imp ?_
  intro x y hxy
  exact compare_le_iff_le.mp (by simpa [depNameSorter] using hxy)

/-- C9: the package-diff comparator is a total order (reflexively `eq`,
antisymmetric under swap, transitive, with `eq` only on equal keys) that
places changes with a primary-version change first, then orders by
dependency-change count descending and name ascending; and dependency-level
changes are sorted ascending by name. -/
theorem C9_sorter_order :
    (∀ a b : PackageDiff, a.pkg.isSome = true → b.pkg.isSome = false →
      sysPkgSorter a b = Ordering.lt) ∧
    (∀ a b : PackageDiff, a.pkg.isSome = b.pkg.isSome →
      b.deps.length < a.deps.length → sysPkgSorter a b = Ordering.lt) ∧
    (∀ a b : PackageDiff, a.pkg.isSome = b.pkg.isSome →
      a.deps.length = b.deps.length →
      sysPkgSorter a b = compare a.name b.name) ∧
    (∀ a : PackageDiff, sysPkgSorter a a = Ordering.eq) ∧
    (∀ a b : PackageDiff, sysPkgSorter b a = (sysPkgSorter a b).swap) ∧
    (∀ a b : PackageDiff, sysPkgSorter a b = Ordering.eq ↔
      (a.pkg.isSome = b.pkg.isSome ∧ a.deps.length = b.deps.length ∧
       a.name = b.name)) ∧
    (∀ a b c : PackageDiff, sysPkgSorter a b = Ordering.lt →
      sysPkgSorter b c = Ordering.lt → sysPkgSorter a c = Ordering.lt) ∧
    (∀ deps : List StoreDiff,
      (sortDeps deps).Pairwise fun x y => x.name ≤ y.name) := by
  refine ⟨?_, ?_, ?_, ?_, ?_, ?_, ?_, ?_⟩
  · intro a b ha hb
    rw [sysPkgSorter_lt_iff]
    left
    rw [pkgRank, pkgRank, ha, hb]
    simp
  · intro a b hrank hlen
    rw [sysPkgSorter_lt_iff]
    right
    exact ⟨(pkgRank_eq_iff a b).mpr hrank, Or.inl hlen⟩
  · intro a b hrank hlen
    rw [sysPkgSorter_decompose,
        compare_eq_iff_eq.mpr ((pkgRank_eq_iff a b).mpr hrank),
        compare_eq_iff_eq.mpr hlen.symm]
    rfl
  · intro a
    exact (sysPkgSorter_eq_iff a a).mpr ⟨rfl, rfl, rfl⟩
  · exact sysPkgSorter_swap
  · intro a b
    rw [sysPkgSorter_eq_iff, pkgRank_eq_iff]
    constructor
    · rintro ⟨h1, h2, h3⟩; exact ⟨h1, h2.symm, h3⟩
    · rintro ⟨h1, h2, h3⟩; exact ⟨h1, h2.symm, h3⟩
  · intro a b c hab hbc
    exact sysPkgSorter_trans hab hbc
  · exact sortDeps_sorted

/-- Witness for C9: a primary change sorts before a dependency-only change,
and a larger dependency-change count sorts first among equals. -/
theorem C9_sorter_order_witness :
    sysPkgSorter ⟨"zsh", some ⟨"zsh", "5.6", "5.7"⟩, []⟩
        ⟨"bash", none, [⟨"readline", "7.0", "8.0"⟩]⟩ = Ordering.lt ∧
    sysPkgSorter ⟨"gcc", none, [⟨"mpfr", "4.0", "4.1"⟩]⟩
        ⟨"alsa", none, []⟩ = Ordering.lt :=
  ⟨C9_sorter_order.1 _ _ (by decide) (by decide),
   C9_sorter_order.2.1 _ _ (by decide) (by decide)⟩

end Nixup
